import Mathlib

/-
  Verification of the lazycommit diff-partitioning, classification and
  message-resolution pipeline.

  JavaScript strings are modelled as lists of characters (type Str below).
  Each definition is a shallow embedding of the corresponding function of
  the repository: the chunking and splitting functions come from
  src/utils/git.ts, the resolver and sanitizer from src/utils/groq.ts, and
  the classifier and grouper from the multi-commit command module.
-/

namespace LazyCommit

/-- A JavaScript string, modelled as its list of characters. -/
abbrev Str := List Char

/-- Coerce a Lean string literal into the character-list model. -/
def toStr (s : String) : Str := s.data

/-- JavaScript whitespace class (the ASCII part of the regex class \s),
as used by String.prototype.trim and by \s in the regexes of the source. -/
def isWS (c : Char) : Bool :=
  c == ' ' || c == '\t' || c == '\n' || c == '\r' || c.toNat == 11 || c.toNat == 12

/-- JavaScript String.prototype.trim: drop whitespace from both ends. -/
def trimStr (s : Str) : Str :=
  ((s.dropWhile isWS).reverse.dropWhile isWS).reverse

/-- JavaScript String.prototype.split with a one-character separator:
never returns an empty list, keeps empty segments. -/
def splitSep (sep : Char) : Str → List Str
  | [] => [[]]
  | c :: rest =>
    if c = sep then [] :: splitSep sep rest
    else
      match splitSep sep rest with
      | [] => [[c]]
      | l :: ls => (c :: l) :: ls

/-- diff.split with a newline separator, as used by chunkDiff and
splitDiffByFile in src/utils/git.ts. -/
def splitLines (s : Str) : List Str := splitSep '\n' s

/-- Joining chunks back with the original line separator. -/
def joinLines (ls : List Str) : Str := List.intercalate [ '\n' ] ls

/-- estimateTokenCount of src/utils/git.ts: Math.ceil(text.length / 4). -/
def estimateTokenCount (text : Str) : Nat := (text.length + 3) / 4

/-- The line-accumulation loop of chunkDiff (src/utils/git.ts): the running
chunk is closed, trimmed and emitted when adding the next line would
exceed the token budget and the running chunk is non-empty; at the end the
running chunk is emitted if its trim is non-empty. -/
def chunkDiffLoop (maxTokens : Nat) : List Str → Str → Nat → List Str
  | [], cur, _ => if trimStr cur = [] then [] else [trimStr cur]
  | line :: rest, cur, t =>
    if maxTokens < t + estimateTokenCount line ∧ cur ≠ [] then
      trimStr cur :: chunkDiffLoop maxTokens rest (line ++ [ '\n' ]) (estimateTokenCount line)
    else
      chunkDiffLoop maxTokens rest (cur ++ line ++ [ '\n' ]) (t + estimateTokenCount line)

/-- chunkDiff of src/utils/git.ts (the source default for the budget is
4000; here the budget is always passed explicitly). -/
def chunkDiff (diff : Str) (maxTokens : Nat) : List Str :=
  if estimateTokenCount diff ≤ maxTokens then [diff]
  else chunkDiffLoop maxTokens (splitLines diff) [] 0

/-- The same loop at the level of line blocks: it records which lines went
into each chunk instead of the concatenated text.  Used to state and prove
what chunkDiff preserves. -/
def chunkBlocksLoop (maxTokens : Nat) : List Str → List Str → Nat → List (List Str)
  | [], acc, _ => if acc = [] then [] else [acc]
  | line :: rest, acc, t =>
    if maxTokens < t + estimateTokenCount line ∧ acc ≠ [] then
      acc :: chunkBlocksLoop maxTokens rest [line] (estimateTokenCount line)
    else
      chunkBlocksLoop maxTokens rest (acc ++ [line]) (t + estimateTokenCount line)

/-- The blocks of consecutive lines underlying the chunks of chunkDiff. -/
def chunkBlocks (maxTokens : Nat) (diff : Str) : List (List Str) :=
  chunkBlocksLoop maxTokens (splitLines diff) [] 0

/-- The text a block of lines accumulates into: every line is written with
a trailing newline, exactly as the loop of chunkDiff builds currentChunk. -/
def blockText (b : List Str) : Str :=
  (b.map (fun l => l ++ [ '\n' ])).flatten

/-- How chunkDiff emits blocks as chunk strings: every block is joined and
trimmed; only the final block is dropped when its trim is empty. -/
def emitChunks : List (List Str) → List Str
  | [] => []
  | b :: bs =>
    match bs with
    | [] => if trimStr (blockText b) = [] then [] else [trimStr (blockText b)]
    | b2 :: bs2 => trimStr (blockText b) :: emitChunks (b2 :: bs2)

/-- The file-boundary marker test of splitDiffByFile:
line.startsWith with the marker given below. -/
def startsW : Str → Str → Bool
  | [], _ => true
  | _ :: _, [] => false
  | p :: ps, c :: cs => p == c && startsW ps cs

/-- The file-boundary marker of src/utils/git.ts. -/
def markerChars : Str := toStr "diff --git "

/-- A line that starts a new per-file segment in splitDiffByFile. -/
def isMarkerLine (line : Str) : Bool := startsW markerChars line

/-- The accumulation loop of splitDiffByFile (src/utils/git.ts): a marker
line closes the running segment (pushed trimmed when its trim is
non-empty) and starts a new one; the final segment is pushed the same
way. -/
def splitDiffByFileLoop : List Str → Str → List Str
  | [], cur => if trimStr cur = [] then [] else [trimStr cur]
  | line :: rest, cur =>
    if isMarkerLine line then
      (if trimStr cur = [] then [] else [trimStr cur]) ++ splitDiffByFileLoop rest (line ++ [ '\n' ])
    else
      splitDiffByFileLoop rest (cur ++ line ++ [ '\n' ])

/-- splitDiffByFile of src/utils/git.ts. -/
def splitDiffByFile (diff : Str) : List Str :=
  splitDiffByFileLoop (splitLines diff) []

/-- The same loop at the level of line blocks, recording which lines each
segment came from. -/
def splitBlocksLoop : List Str → List Str → List (List Str)
  | [], acc => if acc = [] then [] else [acc]
  | line :: rest, acc =>
    if isMarkerLine line then
      (if acc = [] then [] else [acc]) ++ splitBlocksLoop rest [line]
    else
      splitBlocksLoop rest (acc ++ [line])

/-- The blocks of consecutive lines underlying the segments of
splitDiffByFile. -/
def splitBlocks (diff : Str) : List (List Str) :=
  splitBlocksLoop (splitLines diff) []

/-
  Basic lemmas about the chunking loop.
-/

theorem blockText_nil : blockText [] = [] := rfl

theorem blockText_single (l : Str) : blockText [l] = l ++ [ '\n' ] := by
  simp [blockText]

theorem blockText_append (a b : List Str) :
    blockText (a ++ b) = blockText a ++ blockText b := by
  simp [blockText]

theorem blockText_eq_nil_iff (b : List Str) : blockText b = [] ↔ b = [] := by
  cases b with
  | nil => simp [blockText]
  | cons l ls => simp [blockText]

theorem chunkBlocksLoop_ne_nil (maxTokens : Nat) :
    ∀ (lines acc : List Str) (t : Nat), acc ≠ [] →
      chunkBlocksLoop maxTokens lines acc t ≠ [] := by
  intro lines
  induction lines with
  | nil =>
    intro acc t h
    simp [chunkBlocksLoop, h]
  | cons line rest ih =>
    intro acc t h
    simp only [chunkBlocksLoop]
    by_cases hc : maxTokens < t + estimateTokenCount line ∧ acc ≠ []
    · rw [if_pos hc]
      simp
    · rw [if_neg hc]
      exact ih (acc ++ [line]) _ (by simp)

theorem chunkBlocksLoop_flatten (maxTokens : Nat) :
    ∀ (lines acc : List Str) (t : Nat),
      (chunkBlocksLoop maxTokens lines acc t).flatten = acc ++ lines := by
  intro lines
  induction lines with
  | nil =>
    intro acc t
    by_cases h : acc = [] <;> simp [chunkBlocksLoop, h]
  | cons line rest ih =>
    intro acc t
    simp only [chunkBlocksLoop]
    by_cases hc : maxTokens < t + estimateTokenCount line ∧ acc ≠ []
    · rw [if_pos hc]
      simp [ih]
    · rw [if_neg hc]
      simp [ih]

theorem chunkDiffLoop_eq_emit (maxTokens : Nat) :
    ∀ (lines acc : List Str) (t : Nat),
      chunkDiffLoop maxTokens lines (blockText acc) t =
        emitChunks (chunkBlocksLoop maxTokens lines acc t) := by
  intro lines
  induction lines with
  | nil =>
    intro acc t
    by_cases h : acc = []
    · subst h
      simp [chunkDiffLoop, chunkBlocksLoop, emitChunks, blockText, trimStr]
    · simp only [chunkDiffLoop, chunkBlocksLoop, if_neg h]
      rfl
  | cons line rest ih =>
    intro acc t
    simp only [chunkDiffLoop, chunkBlocksLoop]
    by_cases hc : maxTokens < t + estimateTokenCount line ∧ acc ≠ []
    · have hc' : maxTokens < t + estimateTokenCount line ∧ blockText acc ≠ [] :=
        ⟨hc.1, fun h => hc.2 ((blockText_eq_nil_iff acc).mp h)⟩
      rw [if_pos hc, if_pos hc']
      have hne : chunkBlocksLoop maxTokens rest [line] (estimateTokenCount line) ≠ [] :=
        chunkBlocksLoop_ne_nil maxTokens rest [line] _ (by simp)
      rcases hbl : chunkBlocksLoop maxTokens rest [line] (estimateTokenCount line) with _ | ⟨b2, bs2⟩
      · exact absurd hbl hne
      · have := ih [line] (estimateTokenCount line)
        rw [blockText_single] at this
        rw [this, hbl]
        rfl
    · have hc' : ¬(maxTokens < t + estimateTokenCount line ∧ blockText acc ≠ []) := by
        intro h
        exact hc ⟨h.1, fun h2 => h.2 (by rw [h2, blockText_nil])⟩
      rw [if_neg hc, if_neg hc']
      have : blockText acc ++ line ++ [ '\n' ] = blockText (acc ++ [line]) := by
        rw [blockText_append, blockText_single, List.append_assoc]
      rw [this]
      exact ih (acc ++ [line]) (t + estimateTokenCount line)

theorem chunkBlocksLoop_budget (maxTokens : Nat) :
    ∀ (lines acc : List Str),
      ((acc.map estimateTokenCount).sum ≤ maxTokens ∨
        ∃ l, acc = [l] ∧ maxTokens < estimateTokenCount l) →
      ∀ b ∈ chunkBlocksLoop maxTokens lines acc ((acc.map estimateTokenCount).sum),
        (b.map estimateTokenCount).sum ≤ maxTokens ∨
          ∃ l, b = [l] ∧ maxTokens < estimateTokenCount l := by
  intro lines
  induction lines with
  | nil =>
    intro acc hacc b hb
    simp only [chunkBlocksLoop] at hb
    by_cases h : acc = []
    · rw [if_pos h] at hb
      exact absurd hb (List.not_mem_nil b)
    · rw [if_neg h] at hb
      have hb' : b = acc := List.mem_singleton.mp hb
      exact hb' ▸ hacc
  | cons line rest ih =>
    intro acc hacc b hb
    simp only [chunkBlocksLoop] at hb
    have hsingle : ((([line] : List Str).map estimateTokenCount).sum ≤ maxTokens ∨
        ∃ l, ([line] : List Str) = [l] ∧ maxTokens < estimateTokenCount l) := by
      by_cases hle : estimateTokenCount line ≤ maxTokens
      · exact Or.inl (by simpa using hle)
      · exact Or.inr ⟨line, rfl, Nat.lt_of_not_le hle⟩
    by_cases hc : maxTokens < (acc.map estimateTokenCount).sum + estimateTokenCount line ∧ acc ≠ []
    · rw [if_pos hc] at hb
      rcases List.mem_cons.mp hb with rfl | hb2
      · exact hacc
      · have ht : estimateTokenCount line = (([line] : List Str).map estimateTokenCount).sum := by simp
        rw [ht] at hb2
        exact ih [line] hsingle b hb2
    · rw [if_neg hc] at hb
      rcases Decidable.not_and_iff_or_not.mp hc with h1 | h2
      · have hle : (acc.map estimateTokenCount).sum + estimateTokenCount line ≤ maxTokens :=
          Nat.le_of_not_lt h1
        have hsum : (acc.map estimateTokenCount).sum + estimateTokenCount line =
            (((acc ++ [line]).map estimateTokenCount).sum) := by simp
        rw [hsum] at hb
        exact ih (acc ++ [line]) (Or.inl (hsum ▸ hle)) b hb
      · have hacc0 : acc = [] := Decidable.not_not.mp h2
        subst hacc0
        simp only [List.nil_append, List.map_nil, List.sum_nil, Nat.zero_add] at hb
        have ht : estimateTokenCount line = (([line] : List Str).map estimateTokenCount).sum := by simp
        rw [ht] at hb
        exact ih [line] hsingle b hb

/-
  Basic lemmas about the per-file splitting loop.
-/

theorem startsW_cons {c : Char} {p s : Str} (h : startsW (c :: p) s = true) :
    ∃ t, s = c :: t ∧ startsW p t = true := by
  cases s with
  | nil => simp [startsW] at h
  | cons a t =>
    simp only [startsW, Bool.and_eq_true, beq_iff_eq] at h
    exact ⟨t, by rw [h.1], h.2⟩

theorem isMarkerLine_head {line : Str} (h : isMarkerLine line = true) :
    ∃ t, line = 'd' :: t := by
  have h2 : startsW ('d' :: toStr "iff --git ") line = true := h
  rcases startsW_cons h2 with ⟨t, ht, _⟩
  exact ⟨t, ht⟩

theorem dropWhile_concat_ne {p : Char → Bool} {a : Char} (h : p a = false) :
    ∀ l : Str, l.dropWhile p ++ [a] ≠ [] ∧ List.dropWhile p (l ++ [a]) ≠ [] := by
  intro l
  induction l with
  | nil =>
    constructor
    · simp
    · simp [List.dropWhile, h]
  | cons b t ih =>
    constructor
    · simp
    · by_cases hb : p b = true
      · simpa [List.dropWhile, hb] using ih.2
      · simp [List.dropWhile, hb]

theorem trimStr_cons_ne (c : Char) (h : isWS c = false) (xs : Str) :
    trimStr (c :: xs) ≠ [] := by
  intro hEq
  unfold trimStr at hEq
  rw [List.dropWhile_cons, if_neg (by simp [h])] at hEq
  have h1 : List.dropWhile isWS ((c :: xs).reverse) = [] := by
    have := List.reverse_eq_nil_iff.mp hEq
    exact this
  rw [List.reverse_cons] at h1
  exact (dropWhile_concat_ne h xs.reverse).2 h1

theorem splitLoop_length :
    ∀ (lines : List Str) (cur : Str), (∃ xs, cur = 'd' :: xs) →
      (splitDiffByFileLoop lines cur).length = lines.countP isMarkerLine + 1 := by
  intro lines
  induction lines with
  | nil =>
    intro cur hcur
    rcases hcur with ⟨xs, rfl⟩
    have := trimStr_cons_ne 'd' (by decide) xs
    simp [splitDiffByFileLoop, this]
  | cons line rest ih =>
    intro cur hcur
    rcases hcur with ⟨xs, rfl⟩
    have htrim := trimStr_cons_ne 'd' (by decide) xs
    simp only [splitDiffByFileLoop]
    by_cases hm : isMarkerLine line = true
    · rw [if_pos hm, if_neg htrim]
      rcases isMarkerLine_head hm with ⟨t, rfl⟩
      have hrec := ih (('d' :: t) ++ [ '\n' ]) ⟨t ++ [ '\n' ], by simp⟩
      simp only [List.length_append, hrec, List.length_singleton]
      rw [List.countP_cons_of_pos _ _ hm]
      omega
    · rw [if_neg hm]
      have hrec := ih (('d' :: xs) ++ line ++ [ '\n' ]) ⟨xs ++ line ++ [ '\n' ], by simp⟩
      rw [hrec, List.countP_cons_of_neg _ _ hm]

theorem splitBlocksLoop_flatten :
    ∀ (lines acc : List Str), (splitBlocksLoop lines acc).flatten = acc ++ lines := by
  intro lines
  induction lines with
  | nil =>
    intro acc
    by_cases h : acc = [] <;> simp [splitBlocksLoop, h]
  | cons line rest ih =>
    intro acc
    simp only [splitBlocksLoop]
    by_cases hm : isMarkerLine line = true
    · rw [if_pos hm]
      by_cases h : acc = []
      · subst h
        simp [ih]
      · rw [if_neg h]
        simp [ih]
    · rw [if_neg hm]
      simp [ih]

theorem splitLoop_eq_map :
    ∀ (lines : List Str) (acc : List Str),
      (∃ xs ls, acc = ('d' :: xs) :: ls) →
      splitDiffByFileLoop lines (blockText acc) =
        (splitBlocksLoop lines acc).map (fun b => trimStr (blockText b)) := by
  intro lines
  induction lines with
  | nil =>
    intro acc hacc
    rcases hacc with ⟨xs, ls, rfl⟩
    have hbt : blockText (('d' :: xs) :: ls) = 'd' :: (xs ++ [ '\n' ] ++ blockText ls) := by
      simp [blockText]
    have htrim : trimStr (blockText (('d' :: xs) :: ls)) ≠ [] := by
      rw [hbt]
      exact trimStr_cons_ne 'd' (by decide) _
    simp [splitDiffByFileLoop, splitBlocksLoop, htrim]
  | cons line rest ih =>
    intro acc hacc
    rcases hacc with ⟨xs, ls, rfl⟩
    have hbt : blockText (('d' :: xs) :: ls) = 'd' :: (xs ++ [ '\n' ] ++ blockText ls) := by
      simp [blockText]
    have htrim : trimStr (blockText (('d' :: xs) :: ls)) ≠ [] := by
      rw [hbt]
      exact trimStr_cons_ne 'd' (by decide) _
    simp only [splitDiffByFileLoop, splitBlocksLoop]
    by_cases hm : isMarkerLine line = true
    · rw [if_pos hm, if_pos hm, if_neg htrim, if_neg (by simp : ¬(('d' :: xs) :: ls = []))]
      rcases isMarkerLine_head hm with ⟨t, rfl⟩
      have hrec := ih [('d' :: t)] ⟨t, [], rfl⟩
      rw [blockText_single] at hrec
      simp only [List.cons_append] at hrec ⊢
      rw [hrec]
      simp
    · rw [if_neg hm, if_neg hm]
      have harg : blockText (('d' :: xs) :: ls) ++ line ++ [ '\n' ] =
          blockText ((('d' :: xs) :: ls) ++ [line]) := by
        rw [blockText_append, blockText_single, List.append_assoc]
      rw [harg]
      exact ih ((('d' :: xs) :: ls) ++ [line]) ⟨xs, ls ++ [line], by simp⟩

/-
  src/utils/groq.ts: message sanitation and the reasoning fallback
  extractor used when structured content is empty.
-/

/-- The character class \w of the source regexes (ASCII letters, digits,
underscore). -/
def isWordChar (c : Char) : Bool := c.isAlpha || c.isDigit || c == '_'

/-- JavaScript String.prototype.toLowerCase on ASCII input. -/
def toLowerStr (s : Str) : Str := s.map Char.toLower

/-- The newline removal step of sanitizeMessage:
message.replace with the class of newline and carriage-return characters
and an empty replacement. -/
def stripNewlines (s : Str) : Str :=
  s.filter (fun c => ¬(c = '\n' ∨ c = '\r'))

/-- The reversed view of the end-anchored regex replace of
sanitizeMessage: drop a leading period of the reversed string when the
character after it is a word character. -/
def dropDotRev : Str → Str
  | a :: c :: rest => if a = '.' ∧ isWordChar c = true then c :: rest else a :: c :: rest
  | s => s

/-- The final step of sanitizeMessage: the end-anchored regex replace that
rewrites a word character followed by a period, at the end of the string,
to just the word character. -/
def dropDotEnd (t : Str) : Str := (dropDotRev t.reverse).reverse

/-- sanitizeMessage of src/utils/groq.ts: trim, remove newlines and
carriage returns, drop a single trailing period preceded by a word
character. -/
def sanitizeMessage (s : Str) : Str :=
  dropDotEnd (stripNewlines (trimStr s))

/-- Spec-side reading of the trailing-period rule, stated with getLast:
strip a single trailing period only if the character before it is a word
character.  Used to check that the source regex does exactly this. -/
def stripDotSpec (t : Str) : Str :=
  if t.getLast? = some '.' ∧ t.dropLast.getLast?.any isWordChar = true then t.dropLast
  else t

/-- The whitespace-collapsing step of deriveMessageFromReasoning:
text.replace of every whitespace run by a single space. -/
def collapseWs : Str → Str
  | [] => []
  | [c] => if isWS c then [ ' ' ] else [c]
  | c :: d :: rest =>
    if isWS c then
      if isWS d then collapseWs (d :: rest) else ' ' :: collapseWs (d :: rest)
    else c :: collapseWs (d :: rest)

/-- The cleaned reasoning text: whitespace runs collapsed, then trimmed. -/
def cleanText (t : Str) : Str := trimStr (collapseWs t)

/-- The conventional commit types of the source, in the alternation order
of the regex of deriveMessageFromReasoning. -/
def typeWordsList : List Str :=
  [toStr "feat", toStr "fix", toStr "docs", toStr "style", toStr "refactor",
   toStr "perf", toStr "test", toStr "build", toStr "ci", toStr "chore", toStr "revert"]

/-- The greedy character class of the regex tail: every character other
than a period or a newline. -/
def takeNonStop (s : Str) : Str := s.takeWhile (fun c => ¬(c = '.' ∨ c = '\n'))

/-- Length of the leading whitespace run, for the \s parts of the regex. -/
def wsTake (s : Str) : Nat := (s.takeWhile isWS).length

/-- Backtracking for the final one-or-more-whitespace and body parts of
the regex: the whitespace run tries its longest length first. -/
def tryTailGo (s : Str) : Nat → Option Str
  | 0 => none
  | j + 1 =>
    let body := takeNonStop (s.drop (j + 1))
    if body = [] then tryTailGo s j
    else some (s.take (j + 1) ++ body)

/-- Matches the regex tail consisting of one-or-more whitespace followed
by one-or-more non-period characters, greedily, at the start of s. -/
def tryTail (s : Str) : Option Str := tryTailGo s (wsTake s)

/-- One attempt of the regex part after the type word, with the leading
optional-whitespace star fixed to consume i characters: an optional colon
(greedy) and then the one-or-more-whitespace tail. -/
def restAttempt (s : Str) (i : Nat) : Option Str :=
  let rest := s.drop i
  let withColon :=
    match rest with
    | ':' :: r2 => (tryTail r2).map (fun t => ':' :: t)
    | _ => none
  match withColon with
  | some t => some (s.take i ++ t)
  | none => (tryTail rest).map (fun t => s.take i ++ t)

/-- Backtracking for the leading optional-whitespace star of the regex
part after the type word: longest run first, down to the empty run. -/
def goStarGo (s : Str) : Nat → Option Str
  | 0 => restAttempt s 0
  | i + 1 =>
    match restAttempt s (i + 1) with
    | some m => some m
    | none => goStarGo s i

/-- Matches the part of the regex after the type word at the start of s:
optional whitespace, an optional colon, mandatory whitespace, and a
non-empty greedy run of non-period characters. -/
def matchRest (s : Str) : Option Str := goStarGo s (wsTake s)

/-- The word boundary after the matched type word: end of input or a
non-word character. -/
def boundaryAfter : Str → Bool
  | [] => true
  | c :: _ => !isWordChar c

/-- Tries to match one alternation branch of the regex at the start of s:
the type word (case-insensitively), its closing word boundary, then the
rest of the pattern. -/
def tryWordAt (w : Str) (s : Str) : Option Str :=
  let seg := s.take w.length
  if toLowerStr seg = w ∧ boundaryAfter (s.drop w.length) = true then
    (matchRest (s.drop w.length)).map (fun t => seg ++ t)
  else none

/-- Tries the alternation branches in the order of the source regex. -/
def tryWords : List Str → Str → Option Str
  | [], _ => none
  | w :: ws, s =>
    match tryWordAt w s with
    | some m => some m
    | none => tryWords ws s

/-- The leftmost-match scan of String.prototype.match for the
conventional-type regex of deriveMessageFromReasoning; the flag records
whether the previous character was a word character (for the opening
word boundary). -/
def scanTypeMatch : Str → Bool → Option Str
  | [], _ => none
  | c :: rest, prevWord =>
    match (if prevWord then none else tryWords typeWordsList (c :: rest)) with
    | some m => some m
    | none => scanTypeMatch rest (isWordChar c)

/-- The first sentence-like clause: cleaned.split on sentence punctuation,
first element. -/
def firstSentence (s : Str) : Str :=
  s.takeWhile (fun c => ¬(c = '.' ∨ c = '!' ∨ c = '?'))

/-- The colon-insertion loop of deriveMessageFromReasoning: if the
candidate starts (case-insensitively) with a known type word followed by
a space and not by a colon, rewrite the start to the type word, a colon
and a space. -/
def colonInsertGo (lower cand : Str) : List Str → Str
  | [] => cand
  | w :: ws =>
    if startsW (w ++ [ ' ' ]) lower = true ∧ ¬(startsW (w ++ [ ':' ]) lower = true) then
      w ++ ':' :: ' ' :: cand.drop (w.length + 1)
    else colonInsertGo lower cand ws

/-- Normalization into a category-colon-subject form. -/
def colonInsert (cand : Str) : Str :=
  colonInsertGo (toLowerStr cand) cand typeWordsList

/-- deriveMessageFromReasoning of src/utils/groq.ts. -/
def deriveMessageFromReasoning (text : Str) (maxLength : Nat) : Option Str :=
  let cleaned := cleanText text
  let cand0 :=
    match scanTypeMatch cleaned false with
    | some m => m
    | none => firstSentence cleaned
  let cand := sanitizeMessage (colonInsert cand0)
  if cand = [] then none else some (cand.take maxLength)

/-- One backend choice as consumed by generateCommitMessage: the
structured content and the free-form reasoning, both defaulting to the
empty string when absent. -/
structure Choice where
  content : Str
  reasoning : Str

/-- deduplicateMessages of src/utils/groq.ts: a JavaScript Set keeps the
first occurrence of each string, in insertion order. -/
def dedupGo : List Str → List Str → List Str
  | [], _ => []
  | x :: xs, seen =>
    if x ∈ seen then dedupGo xs seen else x :: dedupGo xs (x :: seen)

/-- deduplicateMessages of src/utils/groq.ts. -/
def deduplicateMessages (l : List Str) : List Str := dedupGo l []

/-- The reasoning-fallback loop of generateCommitMessage: the first
reasoning field whose derivation succeeds wins and is returned as the
sole candidate. -/
def firstDerived : List Str → Nat → List Str
  | [], _ => []
  | r :: rs, maxLength =>
    match deriveMessageFromReasoning r maxLength with
    | some d => [d]
    | none => firstDerived rs maxLength

/-- The pure resolution step of generateCommitMessage
(src/utils/groq.ts): sanitize the structured contents and keep the
non-empty ones, deduplicated; if none survive, fall back to the first
viable reasoning field. -/
def resolveChoices (choices : List Choice) (maxLength : Nat) : List Str :=
  let messages := (choices.map (fun c => sanitizeMessage c.content)).filter (fun m => ¬(m = []))
  if messages = [] then
    firstDerived ((choices.map Choice.reasoning).filter (fun r => ¬(r = []))) maxLength
  else deduplicateMessages messages

example :
    deriveMessageFromReasoning (toStr "... fix: resolve null pointer in parser ...") 72 =
      some (toStr "fix: resolve null pointer in parser") := by decide

example :
    resolveChoices [⟨[], toStr "... fix: resolve null pointer in parser ..."⟩] 72 =
      [toStr "fix: resolve null pointer in parser"] := by decide

example :
    deriveMessageFromReasoning (toStr "the fix handles empty diffs. done") 72 =
      some (toStr "fix: handles empty diffs") := by decide

example : sanitizeMessage (toStr " \"fix bug\" ") = toStr "\"fix bug\"" := by decide

example : sanitizeMessage (toStr "etc.") = toStr "etc" := by decide

example : sanitizeMessage (toStr "wait...") = toStr "wait..." := by decide

example : deriveMessageFromReasoning (toStr "ab") 72 = some (toStr "ab") := by decide

/-
  The multi-commit command module: file classification, grouping and the
  deep split of a single oversized group.
-/

/-- JavaScript String.prototype.includes. -/
def hasSub (pat : Str) : Str → Bool
  | [] => pat.isEmpty
  | c :: cs => startsW pat (c :: cs) || hasSub pat cs

/-- JavaScript String.prototype.endsWith. -/
def endsW (s pat : Str) : Bool := startsW pat.reverse s.reverse

/-- The classifier result: a commit type and an optional scope label. -/
structure FileMeta where
  type : Str
  scope : Option Str
deriving DecidableEq

/-- The test-file regex of classifyFile, an end-anchored alternation over
the eight concrete suffixes it denotes. -/
def testSuffixMatch (lower : Str) : Bool :=
  endsW lower (toStr ".test.js") || endsW lower (toStr ".test.ts") ||
  endsW lower (toStr ".test.jsx") || endsW lower (toStr ".test.tsx") ||
  endsW lower (toStr ".spec.js") || endsW lower (toStr ".spec.ts") ||
  endsW lower (toStr ".spec.jsx") || endsW lower (toStr ".spec.tsx")

/-- The documentation condition of classifyFile. -/
def isDocsPath (lower : Str) : Bool :=
  endsW lower (toStr ".md") || startsW (toStr "docs/") lower ||
  hasSub (toStr "/docs/") lower || hasSub (toStr "readme") lower ||
  hasSub (toStr "changelog") lower || hasSub (toStr "license") lower ||
  endsW lower (toStr ".rst") || endsW lower (toStr ".adoc")

/-- The continuous-integration condition of classifyFile. -/
def isCiPath (lower : Str) : Bool :=
  startsW (toStr ".github/") lower || startsW (toStr ".gitlab/") lower ||
  ((endsW lower (toStr ".yml") || endsW lower (toStr ".yaml")) &&
   (hasSub (toStr "workflow") lower || hasSub (toStr "pipeline") lower ||
    hasSub (toStr "action") lower || hasSub (toStr "ci") lower ||
    hasSub (toStr "deploy") lower))

/-- The build, configuration and dependency condition of classifyFile. -/
def isBuildPath (lower : Str) : Bool :=
  endsW lower (toStr "package.json") || endsW lower (toStr "pnpm-lock.yaml") ||
  endsW lower (toStr "yarn.lock") || endsW lower (toStr "package-lock.json") ||
  endsW lower (toStr "tsconfig.json") || endsW lower (toStr "jsconfig.json") ||
  endsW lower (toStr "vite.config.js") || endsW lower (toStr "webpack.config.js") ||
  endsW lower (toStr "rollup.config.js") || endsW lower (toStr "babel.config.js") ||
  endsW lower (toStr ".config.js") || endsW lower (toStr ".config.ts") ||
  endsW lower (toStr "dockerfile") || endsW lower (toStr "docker-compose.yml") ||
  endsW lower (toStr "makefile") || endsW lower (toStr ".mk") ||
  hasSub (toStr "webpack") lower || hasSub (toStr "rollup") lower ||
  hasSub (toStr "vite") lower || hasSub (toStr "babel") lower ||
  startsW (toStr "config/") lower

/-- The test-file condition of classifyFile. -/
def isTestPath (lower : Str) : Bool :=
  hasSub (toStr "/test/") lower || hasSub (toStr "__tests__") lower ||
  hasSub (toStr "/tests/") lower || testSuffixMatch lower ||
  hasSub (toStr ".test.") lower || hasSub (toStr ".spec.") lower ||
  startsW (toStr "test/") lower || startsW (toStr "tests/") lower ||
  hasSub (toStr "cypress/") lower || hasSub (toStr "jest/") lower ||
  hasSub (toStr "vitest/") lower

/-- The analytics condition of classifyFile. -/
def isAnalyticsPath (lower : Str) : Bool :=
  hasSub (toStr "analytics") lower || hasSub (toStr "metrics") lower ||
  hasSub (toStr "tracking") lower

/-- The authentication and security condition of classifyFile. -/
def isAuthPath (lower : Str) : Bool :=
  hasSub (toStr "auth") lower || hasSub (toStr "login") lower ||
  hasSub (toStr "security") lower || hasSub (toStr "permission") lower ||
  hasSub (toStr "role") lower

/-- The API route condition of classifyFile. -/
def isApiPath (lower : Str) : Bool :=
  startsW (toStr "app/api/") lower || hasSub (toStr "/api/") lower ||
  hasSub (toStr "routes/") lower || hasSub (toStr "endpoint") lower ||
  hasSub (toStr "handler") lower

/-- The database and data-layer condition of classifyFile. -/
def isDbPath (lower : Str) : Bool :=
  hasSub (toStr "database") lower || hasSub (toStr "/db/") lower ||
  hasSub (toStr "migration") lower || hasSub (toStr "schema") lower ||
  hasSub (toStr "model") lower || hasSub (toStr "entity") lower ||
  endsW lower (toStr ".sql") || hasSub (toStr "prisma/") lower

/-- The user-interface and styling condition of classifyFile. -/
def isUiPath (lower : Str) : Bool :=
  hasSub (toStr "component") lower || hasSub (toStr "ui/") lower ||
  hasSub (toStr "style") lower || endsW lower (toStr ".css") ||
  endsW lower (toStr ".scss") || endsW lower (toStr ".less") ||
  endsW lower (toStr ".styl") || hasSub (toStr "theme") lower

/-- The utilities condition of classifyFile. -/
def isUtilPath (lower : Str) : Bool :=
  hasSub (toStr "util") lower || hasSub (toStr "helper") lower ||
  hasSub (toStr "lib/") lower || hasSub (toStr "common/") lower ||
  hasSub (toStr "shared/") lower

/-- The application-routing condition of classifyFile. -/
def isAppPath (lower : Str) : Bool :=
  startsW (toStr "app/") lower || startsW (toStr "src/app/") lower ||
  hasSub (toStr "page") lower || hasSub (toStr "layout") lower ||
  hasSub (toStr "route") lower

/-- classifyFile of the multi-commit command module, on the lowercased
path: a first-match-wins chain of path and extension heuristics. -/
def classifyLower (lower : Str) : FileMeta :=
  if isDocsPath lower then ⟨toStr "docs", none⟩
  else if isCiPath lower then ⟨toStr "ci", none⟩
  else if isBuildPath lower then ⟨toStr "build", none⟩
  else if isTestPath lower then ⟨toStr "test", none⟩
  else if isAnalyticsPath lower then ⟨toStr "feat", some (toStr "analytics")⟩
  else if isAuthPath lower then ⟨toStr "feat", some (toStr "auth")⟩
  else if isApiPath lower then ⟨toStr "feat", some (toStr "api")⟩
  else if isDbPath lower then ⟨toStr "feat", some (toStr "db")⟩
  else if isUiPath lower then ⟨toStr "feat", some (toStr "ui")⟩
  else if isUtilPath lower then ⟨toStr "refactor", some (toStr "utils")⟩
  else if isAppPath lower then ⟨toStr "feat", some (toStr "app")⟩
  else if startsW (toStr "src/") lower then ⟨toStr "feat", some (toStr "core")⟩
  else ⟨toStr "chore", none⟩

/-- classifyFile of the multi-commit command module. -/
def classifyFile (file : Str) : FileMeta := classifyLower (toLowerStr file)

/-- topLevelScope: the first path segment when the path has more than one
segment. -/
def topLevelScope (file : Str) : Option Str :=
  match splitSep '/' file with
  | p :: _ :: _ => some p
  | _ => none

/-- JavaScript truthiness of the or-else on optional strings: an empty
string counts as absent. -/
def truthyOr (a b : Option Str) : Option Str :=
  match a with
  | some s => if s = [] then b else some s
  | none => b

/-- The or-else against the general label used when building bucket
keys. -/
def scopeOrGeneral (o : Option Str) : Str :=
  match o with
  | some s => if s = [] then toStr "general" else s
  | none => toStr "general"

/-- The effective scope of a file in groupFiles: the classifier scope when
truthy, else the top-level path segment. -/
def fileScope (f : Str) : Option Str :=
  truthyOr (classifyFile f).scope (topLevelScope f)

/-- The bucket key of a file in groupFiles. -/
def fileKey (f : Str) : Str :=
  (classifyFile f).type ++ ':' :: scopeOrGeneral (fileScope f)

/-- The metadata stored in a fresh bucket for a file. -/
def fileBucketMeta (f : Str) : FileMeta :=
  ⟨(classifyFile f).type, fileScope f⟩

/-- A bucket of the grouping map: its metadata and its files. -/
structure Bucket where
  meta : FileMeta
  files : List Str
deriving DecidableEq

/-- One map update of groupFiles: push the file onto the bucket of its
key, keeping insertion order of keys, or append a fresh bucket. -/
def addToBuckets : List (Str × Bucket) → Str → FileMeta → Str → List (Str × Bucket)
  | [], key, meta, f => [(key, ⟨meta, [f]⟩)]
  | (k, b) :: rest, key, meta, f =>
    if k = key then (k, ⟨b.meta, b.files ++ [f]⟩) :: rest
    else (k, b) :: addToBuckets rest key meta f

/-- The bucket map built by the classification loop of groupFiles. -/
def buildBuckets (files : List Str) : List (Str × Bucket) :=
  files.foldl (fun bs f => addToBuckets bs (fileKey f) (fileBucketMeta f) f) []

/-- A commit group as produced by groupFiles. -/
structure CommitGroup where
  type : Str
  scope : Option Str
  title : Str
  files : List Str
deriving DecidableEq

/-- The default title base per commit type. -/
def titleFor (t : Str) : Str :=
  if t = toStr "docs" then toStr "update documentation"
  else if t = toStr "ci" then toStr "update CI workflows"
  else if t = toStr "build" then toStr "update build/configuration"
  else if t = toStr "test" then toStr "update tests"
  else if t = toStr "feat" then toStr "add or update features"
  else if t = toStr "chore" then toStr "maintenance updates"
  else toStr "update files"

/-- Turning a bucket into a commit group, with the scope appended to the
title when truthy. -/
def bucketToGroup (b : Bucket) : CommitGroup :=
  let base := titleFor b.meta.type
  let title :=
    match b.meta.scope with
    | some s => if s = [] then base else base ++ toStr " in " ++ s
    | none => base
  ⟨b.meta.type, b.meta.scope, title, b.files⟩

/-- The conventional priority order of groupFiles; unknown types sort
last with weight 99. -/
def priorityOf (t : Str) : Nat :=
  if t = toStr "feat" then 0
  else if t = toStr "fix" then 1
  else if t = toStr "refactor" then 2
  else if t = toStr "perf" then 3
  else if t = toStr "test" then 4
  else if t = toStr "docs" then 5
  else if t = toStr "build" then 6
  else if t = toStr "ci" then 7
  else if t = toStr "chore" then 8
  else 99

/-- Stable insertion of a group after all groups of smaller or equal
priority.  The source sorts with a stable comparison on priorityOf
(ECMAScript array sort is stable), and the stable ascending sort of a
list by a total preorder is unique, so this inserting sort computes the
same list. -/
def insPri (g : CommitGroup) : List CommitGroup → List CommitGroup
  | [] => [g]
  | h :: t =>
    if priorityOf g.type < priorityOf h.type then g :: h :: t
    else h :: insPri g t

/-- The stable priority sort of groupFiles. -/
def sortGroups (l : List CommitGroup) : List CommitGroup :=
  l.foldl (fun acc g => insPri g acc) []

/-- groupFiles of the multi-commit command module. -/
def groupFiles (files : List Str) : List CommitGroup :=
  sortGroups ((buildBuckets files).map (fun kb => bucketToGroup kb.2))

/-- getSecondLevelDir of the multi-commit command module. -/
def getSecondLevelDir (file : Str) : Option Str :=
  let parts := splitSep '/' file
  if 4 ≤ parts.length ∧ parts[0]? = some (toStr "app") ∧ parts[1]? = some (toStr "api") then
    parts[2]?
  else if 2 ≤ parts.length then parts[1]?
  else none

/-- The second-level key of the deep split, with the general fallback for
a falsy segment. -/
def secondKey (f : Str) : Str :=
  match getSecondLevelDir f with
  | some s => if s = [] then toStr "general" else s
  | none => toStr "general"

/-- One map update of the deep split: append the file to the list of its
second-level key, keeping key insertion order. -/
def insertSnd : List (Str × List Str) → Str → Str → List (Str × List Str)
  | [], k, f => [(k, [f])]
  | (k0, fs) :: rest, k, f =>
    if k0 = k then (k0, fs ++ [f]) :: rest
    else (k0, fs) :: insertSnd rest k f

/-- The second-level bucket map of the deep split. -/
def secondBuckets (files : List Str) : List (Str × List Str) :=
  files.foldl (fun m f => insertSnd m (secondKey f) f) []

/-- The deep-split step of the multi-commit command: when grouping
produced exactly one group with at least five files, re-bucket its files
by second-level directory. -/
def deepSplit (groups : List CommitGroup) : List CommitGroup :=
  match groups with
  | [g] =>
    if 5 ≤ g.files.length then
      (secondBuckets g.files).map
        (fun kv => ⟨g.type, some kv.1, toStr "update files in " ++ kv.1, kv.2⟩)
    else [g]
  | gs => gs

/-
  Lemmas about the grouping pipeline.
-/

theorem addToBuckets_flatten (key : Str) (meta : FileMeta) (f : Str) :
    ∀ bs : List (Str × Bucket),
      ((addToBuckets bs key meta f).map (fun kb => kb.2.files)).flatten.Perm
        ((bs.map (fun kb => kb.2.files)).flatten ++ [f]) := by
  intro bs
  induction bs with
  | nil => simp [addToBuckets]
  | cons kb rest ih =>
    rcases kb with ⟨k, b⟩
    simp only [addToBuckets]
    by_cases hk : k = key
    · rw [if_pos hk]
      simp only [List.map_cons, List.flatten_cons]
      rw [List.append_assoc, List.append_assoc]
      exact (List.perm_append_comm.append_left b.files).trans (by simp)
    · rw [if_neg hk]
      simp only [List.map_cons, List.flatten_cons, List.append_assoc]
      exact ih.append_left b.files

theorem buildBucketsAux_flatten :
    ∀ (files : List Str) (bs : List (Str × Bucket)),
      ((files.foldl (fun bs f => addToBuckets bs (fileKey f) (fileBucketMeta f) f) bs).map
          (fun kb => kb.2.files)).flatten.Perm
        ((bs.map (fun kb => kb.2.files)).flatten ++ files) := by
  intro files
  induction files with
  | nil => intro bs; simp
  | cons f fs ih =>
    intro bs
    simp only [List.foldl_cons]
    refine (ih (addToBuckets bs (fileKey f) (fileBucketMeta f) f)).trans ?_
    refine ((addToBuckets_flatten (fileKey f) (fileBucketMeta f) f bs).append_right fs).trans ?_
    simp [List.append_assoc]

theorem buildBuckets_flatten (files : List Str) :
    ((buildBuckets files).map (fun kb => kb.2.files)).flatten.Perm files := by
  simpa using buildBucketsAux_flatten files []

/-- Every file stored in a bucket has that bucket's key. -/
def bucketsKeyed (bs : List (Str × Bucket)) : Prop :=
  ∀ kb ∈ bs, ∀ p ∈ kb.2.files, fileKey p = kb.1

theorem addToBuckets_keyed {bs : List (Str × Bucket)} {f : Str}
    (h : bucketsKeyed bs) :
    bucketsKeyed (addToBuckets bs (fileKey f) (fileBucketMeta f) f) := by
  induction bs with
  | nil =>
    intro kb hkb p hp
    simp only [addToBuckets, List.mem_singleton] at hkb
    subst hkb
    simp only [List.mem_singleton] at hp
    subst hp
    rfl
  | cons kb0 rest ih =>
    rcases kb0 with ⟨k, b⟩
    simp only [addToBuckets]
    by_cases hk : k = fileKey f
    · rw [if_pos hk]
      intro kb hkb p hp
      rcases List.mem_cons.mp hkb with rfl | hmem
      · simp only [List.mem_append, List.mem_singleton] at hp
        rcases hp with hp | rfl
        · exact h (k, b) (List.mem_cons_self _ _) p hp
        · exact hk.symm
      · exact h kb (List.mem_cons_of_mem _ hmem) p hp
    · rw [if_neg hk]
      intro kb hkb p hp
      rcases List.mem_cons.mp hkb with rfl | hmem
      · exact h (k, b) (List.mem_cons_self _ _) p hp
      · have hrest : bucketsKeyed rest := fun kb2 hkb2 => h kb2 (List.mem_cons_of_mem _ hkb2)
        exact ih hrest kb hmem p hp

theorem buildBucketsAux_keyed :
    ∀ (files : List Str) (bs : List (Str × Bucket)), bucketsKeyed bs →
      bucketsKeyed (files.foldl (fun bs f => addToBuckets bs (fileKey f) (fileBucketMeta f) f) bs) := by
  intro files
  induction files with
  | nil => intro bs h; exact h
  | cons f fs ih =>
    intro bs h
    exact ih _ (addToBuckets_keyed h)

theorem buildBuckets_keyed (files : List Str) : bucketsKeyed (buildBuckets files) :=
  buildBucketsAux_keyed files [] (by intro kb hkb; simp at hkb)

theorem addToBuckets_keys_sub {bs : List (Str × Bucket)} {key : Str} {meta : FileMeta}
    {f : Str} {x : Str} (h : x ∈ (addToBuckets bs key meta f).map Prod.fst) :
    x ∈ bs.map Prod.fst ∨ x = key := by
  induction bs with
  | nil =>
    simp only [addToBuckets, List.map_cons, List.map_nil, List.mem_singleton] at h
    exact Or.inr h
  | cons kb0 rest ih =>
    rcases kb0 with ⟨k, b⟩
    simp only [addToBuckets] at h
    simp only [List.map_cons, List.mem_cons]
    by_cases hk : k = key
    · rw [if_pos hk] at h
      simp only [List.map_cons, List.mem_cons] at h
      rcases h with rfl | h
      · exact Or.inl (Or.inl rfl)
      · exact Or.inl (Or.inr h)
    · rw [if_neg hk] at h
      simp only [List.map_cons, List.mem_cons] at h
      rcases h with rfl | h
      · exact Or.inl (Or.inl rfl)
      · rcases ih h with h2 | h2
        · exact Or.inl (Or.inr h2)
        · exact Or.inr h2

theorem addToBuckets_keys_nodup {bs : List (Str × Bucket)} {key : Str} {meta : FileMeta}
    {f : Str} (h : (bs.map Prod.fst).Nodup) :
    ((addToBuckets bs key meta f).map Prod.fst).Nodup := by
  induction bs with
  | nil => simp [addToBuckets]
  | cons kb0 rest ih =>
    rcases kb0 with ⟨k, b⟩
    simp only [List.map_cons, List.nodup_cons] at h
    simp only [addToBuckets]
    by_cases hk : k = key
    · rw [if_pos hk]
      simp only [List.map_cons, List.nodup_cons]
      exact ⟨h.1, h.2⟩
    · rw [if_neg hk]
      simp only [List.map_cons, List.nodup_cons]
      refine ⟨fun hmem => ?_, ih h.2⟩
      rcases addToBuckets_keys_sub hmem with h2 | h2
      · exact h.1 h2
      · exact hk h2

theorem buildBucketsAux_keys_nodup :
    ∀ (files : List Str) (bs : List (Str × Bucket)), (bs.map Prod.fst).Nodup →
      ((files.foldl (fun bs f => addToBuckets bs (fileKey f) (fileBucketMeta f) f) bs).map
        Prod.fst).Nodup := by
  intro files
  induction files with
  | nil => intro bs h; exact h
  | cons f fs ih =>
    intro bs h
    exact ih _ (addToBuckets_keys_nodup h)

theorem buildBuckets_keys_nodup (files : List Str) :
    ((buildBuckets files).map Prod.fst).Nodup :=
  buildBucketsAux_keys_nodup files [] (by simp)

theorem buildBuckets_pairwise (files : List Str) :
    List.Pairwise (fun kb1 kb2 : Str × Bucket => ∀ p, p ∈ kb1.2.files → p ∉ kb2.2.files)
      (buildBuckets files) := by
  have hnd := buildBuckets_keys_nodup files
  have hkeyed := buildBuckets_keyed files
  have hpw : List.Pairwise (fun kb1 kb2 : Str × Bucket => kb1.1 ≠ kb2.1) (buildBuckets files) := by
    have h2 : List.Pairwise (fun a b : Str => a ≠ b) ((buildBuckets files).map Prod.fst) := hnd
    exact List.pairwise_map.mp h2
  refine hpw.imp_of_mem ?_
  intro kb1 kb2 h1 h2 hne p hp1 hp2
  have e1 : fileKey p = kb1.1 := hkeyed kb1 h1 p hp1
  have e2 : fileKey p = kb2.1 := hkeyed kb2 h2 p hp2
  exact hne (e1 ▸ e2)

theorem insPri_perm (g : CommitGroup) :
    ∀ l : List CommitGroup, (insPri g l).Perm (g :: l) := by
  intro l
  induction l with
  | nil => simp [insPri]
  | cons h t ih =>
    simp only [insPri]
    by_cases hc : priorityOf g.type < priorityOf h.type
    · rw [if_pos hc]
    · rw [if_neg hc]
      exact (ih.cons h).trans (List.Perm.swap g h t)

theorem insPri_mem {g x : CommitGroup} {l : List CommitGroup}
    (h : x ∈ insPri g l) : x = g ∨ x ∈ l := by
  have := (insPri_perm g l).mem_iff.mp h
  simpa using this

theorem foldl_insPri_perm :
    ∀ (l acc : List CommitGroup),
      (l.foldl (fun acc g => insPri g acc) acc).Perm (acc ++ l) := by
  intro l
  induction l with
  | nil => intro acc; simp
  | cons g gs ih =>
    intro acc
    simp only [List.foldl_cons]
    refine (ih (insPri g acc)).trans ?_
    refine (((insPri_perm g acc).append_right gs).trans ?_)
    simpa using List.perm_middle.symm

theorem sortGroups_perm (l : List CommitGroup) : (sortGroups l).Perm l := by
  simpa [sortGroups] using foldl_insPri_perm l []

theorem insPri_pairwise {g : CommitGroup} {l : List CommitGroup}
    (h : List.Pairwise (fun a b => priorityOf a.type ≤ priorityOf b.type) l) :
    List.Pairwise (fun a b => priorityOf a.type ≤ priorityOf b.type) (insPri g l) := by
  induction l with
  | nil => simp [insPri]
  | cons hd t ih =>
    simp only [insPri]
    rcases List.pairwise_cons.mp h with ⟨hhd, ht⟩
    by_cases hc : priorityOf g.type < priorityOf hd.type
    · rw [if_pos hc]
      refine List.pairwise_cons.mpr ⟨?_, h⟩
      intro x hx
      rcases List.mem_cons.mp hx with rfl | hx2
      · exact Nat.le_of_lt hc
      · exact Nat.le_trans (Nat.le_of_lt hc) (hhd x hx2)
    · rw [if_neg hc]
      refine List.pairwise_cons.mpr ⟨?_, ih ht⟩
      intro x hx
      rcases insPri_mem hx with rfl | hx2
      · exact Nat.le_of_not_lt hc
      · exact hhd x hx2

theorem foldl_insPri_pairwise :
    ∀ (l acc : List CommitGroup),
      List.Pairwise (fun a b => priorityOf a.type ≤ priorityOf b.type) acc →
      List.Pairwise (fun a b => priorityOf a.type ≤ priorityOf b.type)
        (l.foldl (fun acc g => insPri g acc) acc) := by
  intro l
  induction l with
  | nil => intro acc h; exact h
  | cons g gs ih =>
    intro acc h
    exact ih _ (insPri_pairwise h)

theorem sortGroups_pairwise (l : List CommitGroup) :
    List.Pairwise (fun a b => priorityOf a.type ≤ priorityOf b.type) (sortGroups l) :=
  foldl_insPri_pairwise l [] (by simp)

theorem bucketToGroup_files (b : Bucket) : (bucketToGroup b).files = b.files := rfl

theorem groupFiles_flatten_perm (F : List Str) :
    (((groupFiles F).map (fun g => g.files)).flatten).Perm F := by
  unfold groupFiles
  have hsort := sortGroups_perm ((buildBuckets F).map (fun kb => bucketToGroup kb.2))
  have hmap := hsort.map (fun g => g.files)
  have hflat := hmap.flatten
  refine hflat.trans ?_
  have heq : ((buildBuckets F).map (fun kb => bucketToGroup kb.2)).map (fun g => g.files) =
      (buildBuckets F).map (fun kb => kb.2.files) := by
    rw [List.map_map]
    rfl
  rw [heq]
  exact buildBuckets_flatten F

theorem groupFiles_pairwise_disjoint (F : List Str) :
    List.Pairwise (fun g h : CommitGroup => ∀ p, p ∈ g.files → p ∉ h.files) (groupFiles F) := by
  unfold groupFiles
  have hbuckets := buildBuckets_pairwise F
  have hcommits : List.Pairwise (fun g h : CommitGroup => ∀ p, p ∈ g.files → p ∉ h.files)
      ((buildBuckets F).map (fun kb => bucketToGroup kb.2)) := by
    rw [List.pairwise_map]
    exact hbuckets.imp (by intro a b hab; simpa [bucketToGroup_files] using hab)
  have hsymm : ∀ {x y : CommitGroup},
      (∀ p, p ∈ x.files → p ∉ y.files) → (∀ p, p ∈ y.files → p ∉ x.files) := by
    intro x y hxy p hpy hpx
    exact hxy p hpx hpy
  exact ((sortGroups_perm _).pairwise_iff hsymm).mpr hcommits

theorem insertSnd_keys_sub {m : List (Str × List Str)} {k f x : Str}
    (h : x ∈ (insertSnd m k f).map Prod.fst) : x ∈ m.map Prod.fst ∨ x = k := by
  induction m with
  | nil =>
    simp only [insertSnd, List.map_cons, List.map_nil, List.mem_singleton] at h
    exact Or.inr h
  | cons kv rest ih =>
    rcases kv with ⟨k0, fs⟩
    simp only [insertSnd] at h
    simp only [List.map_cons, List.mem_cons]
    by_cases hk : k0 = k
    · rw [if_pos hk] at h
      simp only [List.map_cons, List.mem_cons] at h
      rcases h with rfl | h
      · exact Or.inl (Or.inl rfl)
      · exact Or.inl (Or.inr h)
    · rw [if_neg hk] at h
      simp only [List.map_cons, List.mem_cons] at h
      rcases h with rfl | h
      · exact Or.inl (Or.inl rfl)
      · rcases ih h with h2 | h2
        · exact Or.inl (Or.inr h2)
        · exact Or.inr h2

theorem insertSnd_key_mem (m : List (Str × List Str)) (k f : Str) :
    k ∈ (insertSnd m k f).map Prod.fst := by
  induction m with
  | nil => simp [insertSnd]
  | cons kv rest ih =>
    rcases kv with ⟨k0, fs⟩
    simp only [insertSnd]
    by_cases hk : k0 = k
    · rw [if_pos hk]
      simp only [List.map_cons, List.mem_cons]
      exact Or.inl hk.symm
    · rw [if_neg hk]
      simp only [List.map_cons, List.mem_cons]
      exact Or.inr ih

theorem insertSnd_keys_mono {m : List (Str × List Str)} {k f x : Str}
    (h : x ∈ m.map Prod.fst) : x ∈ (insertSnd m k f).map Prod.fst := by
  induction m with
  | nil => simp at h
  | cons kv rest ih =>
    rcases kv with ⟨k0, fs⟩
    simp only [List.map_cons, List.mem_cons] at h
    simp only [insertSnd]
    by_cases hk : k0 = k
    · rw [if_pos hk]
      simp only [List.map_cons, List.mem_cons]
      exact h.imp id id
    · rw [if_neg hk]
      simp only [List.map_cons, List.mem_cons]
      rcases h with rfl | h
      · exact Or.inl rfl
      · exact Or.inr (ih h)

theorem foldl_insertSnd_keys_mono :
    ∀ (files : List Str) (m : List (Str × List Str)) (x : Str), x ∈ m.map Prod.fst →
      x ∈ ((files.foldl (fun m f => insertSnd m (secondKey f) f) m).map Prod.fst) := by
  intro files
  induction files with
  | nil => intro m x h; exact h
  | cons f fs ih =>
    intro m x h
    exact ih _ x (insertSnd_keys_mono h)

theorem secondBucketsAux_key_mem :
    ∀ (files : List Str) (m : List (Str × List Str)) (f : Str), f ∈ files →
      secondKey f ∈ ((files.foldl (fun m f => insertSnd m (secondKey f) f) m).map Prod.fst) := by
  intro files
  induction files with
  | nil => intro m f h; simp at h
  | cons f0 fs ih =>
    intro m f h
    rcases List.mem_cons.mp h with rfl | h2
    · exact foldl_insertSnd_keys_mono fs _ _ (insertSnd_key_mem m (secondKey f) f)
    · exact ih _ f h2

theorem secondBuckets_key_mem {files : List Str} {f : Str} (h : f ∈ files) :
    secondKey f ∈ (secondBuckets files).map Prod.fst :=
  secondBucketsAux_key_mem files [] f h

theorem two_mem_lt_length {α : Type} {a b : α} {l : List α}
    (ha : a ∈ l) (hb : b ∈ l) (hne : a ≠ b) : 1 < l.length := by
  cases l with
  | nil => simp at ha
  | cons x t =>
    cases t with
    | nil =>
      simp only [List.mem_singleton] at ha hb
      exact absurd (ha.trans hb.symm) hne
    | cons y t2 =>
      simp only [List.length_cons]
      omega

example : (classifyFile (toStr "docs/guide.md")).type = toStr "docs" := by decide

example : (classifyFile (toStr ".github/workflows/ci.yml")).type = toStr "ci" := by decide

example : classifyFile (toStr "src/main.ts") = ⟨toStr "feat", some (toStr "core")⟩ := by decide

example :
    (groupFiles [toStr "docs/guide.md", toStr ".github/workflows/ci.yml", toStr "src/main.ts"]).map
        (fun g => g.type) =
      [toStr "feat", toStr "docs", toStr "ci"] := by decide

example :
    (groupFiles [toStr "app/api/users/a.ts", toStr "app/api/users/b.ts",
      toStr "app/api/orders/a.ts", toStr "app/api/orders/b.ts",
      toStr "app/api/orders/c.ts"]).length = 1 := by decide

example :
    (deepSplit (groupFiles [toStr "app/api/users/a.ts", toStr "app/api/users/b.ts",
      toStr "app/api/orders/a.ts", toStr "app/api/orders/b.ts",
      toStr "app/api/orders/c.ts"])).length = 2 := by decide

/-
  Helper lemmas for the sanitizer characterization.
-/

theorem dropDotEnd_eq_spec (t : Str) : dropDotEnd t = stripDotSpec t := by
  rcases ht : t.reverse with _ | ⟨a, l⟩
  · have h0 : t = [] := List.reverse_eq_nil_iff.mp ht
    subst h0
    rfl
  · rcases l with _ | ⟨c, rest⟩
    · have h1 : t = [a] := by
        have := congrArg List.reverse ht
        simpa using this
      subst h1
      simp [dropDotEnd, dropDotRev, stripDotSpec]
    · have h1 : t = (c :: rest).reverse ++ [a] := by
        have := congrArg List.reverse ht
        simpa using this
      subst h1
      have hrev : ((c :: rest).reverse ++ [a]).reverse = a :: c :: rest := by simp
      have hlast : ((c :: rest).reverse ++ [a]).getLast? = some a := List.getLast?_concat _
      have hdl : ((c :: rest).reverse ++ [a]).dropLast = (c :: rest).reverse :=
        List.dropLast_concat
      have hlast2 : ((c :: rest).reverse).getLast? = some c := by
        rw [List.reverse_cons]
        exact List.getLast?_concat _
      unfold dropDotEnd stripDotSpec
      rw [hrev, hdl, hlast, hlast2]
      simp only [dropDotRev, Option.any_some]
      by_cases hc : a = '.' ∧ isWordChar c = true
      · rw [if_pos hc, if_pos (by simpa using hc)]
      · rw [if_neg hc, if_neg (by simpa using hc)]
        simp

theorem dropDotEnd_cases (t : Str) : dropDotEnd t = t ∨ dropDotEnd t = t.dropLast := by
  rcases ht : t.reverse with _ | ⟨a, l⟩
  · have h0 : t = [] := List.reverse_eq_nil_iff.mp ht
    subst h0
    exact Or.inl rfl
  · rcases l with _ | ⟨c, rest⟩
    · have h1 : t = [a] := by
        have := congrArg List.reverse ht
        simpa using this
      subst h1
      exact Or.inl (by simp [dropDotEnd, dropDotRev])
    · have h1 : t = (c :: rest).reverse ++ [a] := by
        have := congrArg List.reverse ht
        simpa using this
      subst h1
      have hrev : ((c :: rest).reverse ++ [a]).reverse = a :: c :: rest := by simp
      have hdl : ((c :: rest).reverse ++ [a]).dropLast = (c :: rest).reverse :=
        List.dropLast_concat
      unfold dropDotEnd
      rw [hrev]
      simp only [dropDotRev]
      by_cases hc : a = '.' ∧ isWordChar c = true
      · rw [if_pos hc, hdl]
        exact Or.inr rfl
      · rw [if_neg hc]
        exact Or.inl (by simp)

theorem stripNewlines_mem {s : Str} {c : Char} (h : c ∈ stripNewlines s) :
    ¬(c = '\n' ∨ c = '\r') := by
  have := List.mem_filter.mp h
  simpa using this.2

/-
  Claim theorems.
-/

/-- Claim C1, counterexample: with budget 1, the diff consisting of the
line of eight letters a and then a line of three letters b indented by
three spaces is chunked into two trimmed chunks, and joining the chunks
with the original newline separators loses the indentation, so the diff
is not reconstructed exactly. -/
theorem chunk_reconstruct_cex :
    chunkDiff (toStr "aaaaaaaa\n   bbb") 1 = [toStr "aaaaaaaa", toStr "bbb"] ∧
    joinLines (chunkDiff (toStr "aaaaaaaa\n   bbb") 1) ≠ toStr "aaaaaaaa\n   bbb" := by
  constructor
  · decide
  · decide

/-- Claim C1, amended: for every diff D and budget B the blocks of lines
underlying chunk(D, B) partition the lines of D exactly, in order (no
line lost or duplicated at the block level), and the returned chunks are
exactly those blocks joined with their newlines and trimmed of enclosing
whitespace (a final all-whitespace block is dropped); when D is within
budget the single chunk is D itself.  Reconstruction is therefore exact
only up to this trimming. -/
theorem chunk_partition_upto_trim (D : Str) (B : Nat) :
    (chunkBlocks B D).flatten = splitLines D ∧
    chunkDiff D B =
      (if estimateTokenCount D ≤ B then [D] else emitChunks (chunkBlocks B D)) := by
  constructor
  · simpa using chunkBlocksLoop_flatten B (splitLines D) [] 0
  · unfold chunkDiff
    by_cases h : estimateTokenCount D ≤ B
    · rw [if_pos h, if_pos h]
    · rw [if_neg h, if_neg h]
      have := chunkDiffLoop_eq_emit B (splitLines D) [] 0
      rw [blockText_nil] at this
      exact this

/-- Claim C2, counterexample: with budget 2, the third line forces a cut
and the emitted first chunk holds two lines whose joined text estimates
to 3 tokens, above the budget, although each of its lines alone is within
budget; so a chunk can exceed the budget without being a single oversized
line. -/
theorem chunk_budget_cex :
    chunkDiff (toStr "aaaa\nbbbb\ncccc") 2 = [toStr "aaaa\nbbbb", toStr "cccc"] ∧
    2 < estimateTokenCount (toStr "aaaa\nbbbb") ∧
    (splitLines (toStr "aaaa\nbbbb")).length = 2 ∧
    (∀ l ∈ splitLines (toStr "aaaa\nbbbb"), estimateTokenCount l ≤ 2) := by
  refine ⟨by decide, by decide, by decide, by decide⟩

/-- Claim C2, amended: for every diff D and budget B, every block of
lines underlying a chunk of chunk(D, B) has per-line estimated token
counts summing to at most B, except blocks consisting of a single line
whose own estimate exceeds B (the estimate of the joined chunk text also
counts the newline separators and can therefore exceed B slightly). -/
theorem chunk_budget_lines (D : Str) (B : Nat) :
    ∀ b ∈ chunkBlocks B D,
      (b.map estimateTokenCount).sum ≤ B ∨ ∃ l, b = [l] ∧ B < estimateTokenCount l := by
  intro b hb
  exact chunkBlocksLoop_budget B (splitLines D) [] (Or.inl (by simp)) b hb

/-- Witness for chunk_budget_lines at a concrete chunk of a concrete
diff. -/
theorem chunk_budget_lines_witness :
    (([toStr "aaaa", toStr "bbbb"] : List Str).map estimateTokenCount).sum ≤ 2 ∨
      ∃ l, ([toStr "aaaa", toStr "bbbb"] : List Str) = [l] ∧ 2 < estimateTokenCount l :=
  chunk_budget_lines (toStr "aaaa\nbbbb\ncccc") 2 [toStr "aaaa", toStr "bbbb"] (by decide)

/-- Claim C5: for a well-formed diff (its first line is a file-boundary
marker), splitByFile returns exactly one segment per marker line, the
blocks of lines underlying the segments partition the lines of the diff
in order, and each segment is its block joined and trimmed. -/
theorem split_by_file_spec (D : Str)
    (h : ∃ l rest, splitLines D = l :: rest ∧ isMarkerLine l = true) :
    (splitDiffByFile D).length = (splitLines D).countP isMarkerLine ∧
    (splitBlocks D).flatten = splitLines D ∧
    splitDiffByFile D = (splitBlocks D).map (fun b => trimStr (blockText b)) := by
  rcases h with ⟨l, rest, hsp, hm⟩
  rcases isMarkerLine_head hm with ⟨t, rfl⟩
  refine ⟨?_, ?_, ?_⟩
  · unfold splitDiffByFile
    rw [hsp]
    simp only [splitDiffByFileLoop]
    rw [if_pos hm]
    have hrec := splitLoop_length rest (('d' :: t) ++ [ '\n' ]) ⟨t ++ [ '\n' ], by simp⟩
    simp only [List.cons_append] at hrec
    rw [List.countP_cons_of_pos _ _ hm]
    have htrim0 : trimStr ([] : Str) = [] := rfl
    simp [hrec, htrim0]
  · unfold splitBlocks
    simpa using splitBlocksLoop_flatten (splitLines D) []
  · unfold splitDiffByFile splitBlocks
    rw [hsp]
    simp only [splitDiffByFileLoop, splitBlocksLoop]
    rw [if_pos hm, if_pos hm]
    have hrec := splitLoop_eq_map rest [('d' :: t)] ⟨t, [], rfl⟩
    rw [blockText_single] at hrec
    simp only [List.cons_append] at hrec
    have htrim0 : trimStr ([] : Str) = [] := rfl
    simp [hrec, htrim0]

/-- Witness for split_by_file_spec on a two-file diff. -/
theorem split_by_file_spec_witness :
    (splitDiffByFile (toStr "diff --git a/x b/x\nindex 1\ndiff --git a/y b/y\n+z")).length =
      (splitLines (toStr "diff --git a/x b/x\nindex 1\ndiff --git a/y b/y\n+z")).countP
        isMarkerLine :=
  (split_by_file_spec (toStr "diff --git a/x b/x\nindex 1\ndiff --git a/y b/y\n+z")
    ⟨toStr "diff --git a/x b/x",
     [toStr "index 1", toStr "diff --git a/y b/y", toStr "+z"],
     by decide, by decide⟩).1

/-- Claim C3: for every file list F, the groups of group(F) partition F
exactly: the concatenation of the group file lists is a permutation of F
(no file omitted, none duplicated), and the file sets of distinct groups
are disjoint (no file occurs in more than one group). -/
theorem group_partitions (F : List Str) :
    (((groupFiles F).map (fun g => g.files)).flatten).Perm F ∧
    List.Pairwise (fun g h : CommitGroup => ∀ p, p ∈ g.files → p ∉ h.files) (groupFiles F) :=
  ⟨groupFiles_flatten_perm F, groupFiles_pairwise_disjoint F⟩

/-- Claim C4: when group(F) yields exactly one group with at least five
files (the threshold of the source) and F holds two files with distinct
second-level keys, the deep split produces strictly more than one
group. -/
theorem deep_split_many (F : List Str) (f1 f2 : Str)
    (hlen : (groupFiles F).length = 1)
    (hbig : ∀ g ∈ groupFiles F, 5 ≤ g.files.length)
    (h1 : f1 ∈ F) (h2 : f2 ∈ F) (hne : secondKey f1 ≠ secondKey f2) :
    1 < (deepSplit (groupFiles F)).length := by
  rcases hg : groupFiles F with _ | ⟨g, rest⟩
  · rw [hg] at hlen
    simp at hlen
  rcases rest with _ | ⟨g2, rest2⟩
  swap
  · rw [hg] at hlen
    simp at hlen
  have hb : 5 ≤ g.files.length := by
    refine hbig g ?_
    rw [hg]
    exact List.mem_singleton_self g
  have hperm : g.files.Perm F := by
    have := groupFiles_flatten_perm F
    rw [hg] at this
    simpa using this
  have hf1 : f1 ∈ g.files := hperm.mem_iff.mpr h1
  have hf2 : f2 ∈ g.files := hperm.mem_iff.mpr h2
  simp only [deepSplit]
  rw [if_pos hb]
  rw [List.length_map]
  have k1 := secondBuckets_key_mem hf1
  have k2 := secondBuckets_key_mem hf2
  have := two_mem_lt_length k1 k2 hne
  rwa [List.length_map] at this

/-- Witness for deep_split_many: five files under the app api routing
prefix, spanning two second-level directories, collapse into a single
feat group that the deep split separates into two groups. -/
theorem deep_split_many_witness :
    1 < (deepSplit (groupFiles [toStr "app/api/users/a.ts", toStr "app/api/users/b.ts",
      toStr "app/api/orders/a.ts", toStr "app/api/orders/b.ts",
      toStr "app/api/orders/c.ts"])).length :=
  deep_split_many
    [toStr "app/api/users/a.ts", toStr "app/api/users/b.ts",
     toStr "app/api/orders/a.ts", toStr "app/api/orders/b.ts", toStr "app/api/orders/c.ts"]
    (toStr "app/api/users/a.ts") (toStr "app/api/orders/a.ts")
    (by decide) (by decide) (by decide) (by decide) (by decide)

/-- Claim C6, counterexample: all structured contents are empty and the
second choice carries a reasoning text with a conventional prefix, but
the resolver derives its sole candidate from the first non-empty
reasoning text instead, so the prefix-bearing substring is not
returned. -/
theorem resolve_reasoning_cex :
    resolveChoices [⟨[], toStr "we should tidy the readme wording"⟩,
        ⟨[], toStr "fix: resolve null pointer in parser"⟩] 72 =
      [toStr "we should tidy the readme wording"] ∧
    resolveChoices [⟨[], toStr "we should tidy the readme wording"⟩,
        ⟨[], toStr "fix: resolve null pointer in parser"⟩] 72 ≠
      [toStr "fix: resolve null pointer in parser"] := by
  refine ⟨by decide, by decide⟩

/-- Claim C6, amended: when every choice has empty or whitespace-only
structured content, the resolver derives from the first non-empty
reasoning text; when the type regex matches that text, the sole returned
candidate is the matched substring normalized (colon inserted by the
insertion pass when missing), sanitized, and truncated to the length
ceiling. -/
theorem resolve_reasoning_first_viable
    (choices : List Choice) (maxLength : Nat) (r : Str) (rs : List Str) (m : Str)
    (hc : ∀ c ∈ choices, sanitizeMessage c.content = [])
    (hr : (choices.map Choice.reasoning).filter (fun x => ¬(x = [])) = r :: rs)
    (hm : scanTypeMatch (cleanText r) false = some m)
    (hs : sanitizeMessage (colonInsert m) ≠ []) :
    resolveChoices choices maxLength = [(sanitizeMessage (colonInsert m)).take maxLength] := by
  have hd : deriveMessageFromReasoning r maxLength =
      some ((sanitizeMessage (colonInsert m)).take maxLength) := by
    simp only [deriveMessageFromReasoning, hm, if_neg hs]
  unfold resolveChoices
  have hmsg : (choices.map (fun c => sanitizeMessage c.content)).filter (fun m => ¬(m = [])) = [] := by
    rw [List.filter_eq_nil_iff]
    intro a ha
    rcases List.mem_map.mp ha with ⟨c, hcm, rfl⟩
    simp [hc c hcm]
  rw [hmsg, if_pos rfl, hr]
  simp only [firstDerived, hd]

/-- Witness for resolve_reasoning_first_viable on the scenario of the
spec: an empty content and a reasoning field carrying the fix prefix
yield the normalized message as sole candidate. -/
theorem resolve_reasoning_first_viable_witness :
    resolveChoices [⟨[], toStr "... fix: resolve null pointer in parser ..."⟩] 72 =
      [toStr "fix: resolve null pointer in parser"] := by
  have h := resolve_reasoning_first_viable
    [⟨[], toStr "... fix: resolve null pointer in parser ..."⟩] 72
    (toStr "... fix: resolve null pointer in parser ...") []
    (toStr "fix: resolve null pointer in parser ")
    (by decide) (by decide) (by decide) (by decide)
  rw [h]
  decide

/-- Claim C7, counterexample: a reasoning text with no conventional
prefix falls back to its first clause, and the two-character candidate is
returned even though it is shorter than five characters, so no minimum
meaningful length is enforced. -/
theorem derive_fallback_cex :
    scanTypeMatch (cleanText (toStr "ab")) false = none ∧
    deriveMessageFromReasoning (toStr "ab") 72 = some (toStr "ab") ∧
    (toStr "ab").length < 5 := by
  refine ⟨by decide, by decide, by decide⟩

/-- Claim C7, amended: when the type regex finds no match in the cleaned
reasoning text, the resolver falls back to the first sentence-like
clause, and discards the candidate exactly when it is empty after
normalization and sanitization; otherwise the candidate, truncated to
the ceiling, is returned, regardless of its length. -/
theorem derive_fallback_discard_iff (text : Str) (maxLength : Nat)
    (hscan : scanTypeMatch (cleanText text) false = none) :
    (deriveMessageFromReasoning text maxLength = none ↔
      sanitizeMessage (colonInsert (firstSentence (cleanText text))) = []) ∧
    ∀ d, deriveMessageFromReasoning text maxLength = some d →
      d = (sanitizeMessage (colonInsert (firstSentence (cleanText text)))).take maxLength := by
  have hder : deriveMessageFromReasoning text maxLength =
      (if sanitizeMessage (colonInsert (firstSentence (cleanText text))) = [] then none
       else some ((sanitizeMessage (colonInsert (firstSentence (cleanText text)))).take
         maxLength)) := by
    simp only [deriveMessageFromReasoning, hscan]
  rw [hder]
  by_cases h : sanitizeMessage (colonInsert (firstSentence (cleanText text))) = []
  · rw [if_pos h]
    refine ⟨⟨fun _ => h, fun _ => rfl⟩, ?_⟩
    intro d hd
    exact absurd hd (by simp)
  · rw [if_neg h]
    refine ⟨⟨fun hc => absurd hc (by simp), fun hc => absurd hc h⟩, ?_⟩
    intro d hd
    exact (Option.some_inj.mp hd).symm

/-- Witness for derive_fallback_discard_iff on a prefix-free reasoning
text. -/
theorem derive_fallback_discard_iff_witness :
    deriveMessageFromReasoning (toStr "ship the release now") 72 = none ↔
      sanitizeMessage (colonInsert (firstSentence (cleanText (toStr "ship the release now")))) =
        [] :=
  (derive_fallback_discard_iff (toStr "ship the release now") 72 (by decide)).1

/-- Claim C8, counterexample: the sanitizer keeps wrapping straight
quotes (no quote-stripping step exists in the code), and it strips the
final period of an abbreviation because that period is preceded by a word
character, while the claim says abbreviation-final periods are kept. -/
theorem sanitize_ops_cex :
    sanitizeMessage (toStr "\"fix bug\"") = toStr "\"fix bug\"" ∧
    sanitizeMessage (toStr "\"fix bug\"") ≠ toStr "fix bug" ∧
    sanitizeMessage (toStr "etc.") = toStr "etc" ∧
    sanitizeMessage (toStr "wait...") = toStr "wait..." := by
  refine ⟨by decide, by decide, by decide, by decide⟩

/-- Claim C8, amended: sanitization performs exactly trimming of
surrounding whitespace, removal of embedded newline and carriage-return
characters, and removal of a single trailing period when preceded by a
word character (so ellipses are kept, but abbreviation-final periods are
stripped); no quote characters are stripped, and the result never
contains a newline or carriage return. -/
theorem sanitize_exact_ops (s : Str) :
    sanitizeMessage s = stripDotSpec (stripNewlines (trimStr s)) ∧
    ∀ c ∈ sanitizeMessage s, ¬(c = '\n' ∨ c = '\r') := by
  constructor
  · exact dropDotEnd_eq_spec (stripNewlines (trimStr s))
  · intro c hc
    have hcases := dropDotEnd_cases (stripNewlines (trimStr s))
    have hmem : c ∈ stripNewlines (trimStr s) := by
      rcases hcases with hcase | hcase
      · rw [show sanitizeMessage s = dropDotEnd (stripNewlines (trimStr s)) from rfl,
          hcase] at hc
        exact hc
      · rw [show sanitizeMessage s = dropDotEnd (stripNewlines (trimStr s)) from rfl,
          hcase] at hc
        exact (List.dropLast_sublist _).mem hc
    exact stripNewlines_mem hmem

/-- Claim C9: groups are sorted by the fixed priority map of the source
(feature first, then fix, refactor, performance, tests, documentation,
build, continuous integration, maintenance); a change set spanning the
docs, workflows and src trees yields its feature group before its
documentation group before its continuous-integration group. -/
theorem groups_priority_sorted :
    (∀ F : List Str,
      List.Pairwise (fun a b => priorityOf a.type ≤ priorityOf b.type) (groupFiles F)) ∧
    (groupFiles [toStr "docs/guide.md", toStr ".github/workflows/ci.yml",
        toStr "src/main.ts"]).map (fun g => g.type) =
      [toStr "feat", toStr "docs", toStr "ci"] :=
  ⟨fun F => by unfold groupFiles; exact sortGroups_pairwise _,
   by decide⟩

/-- Claim C10: the classifier is total and its commit type always lies in
the seven values docs, ci, build, test, feat, refactor and chore; it
never returns fix or perf. -/
theorem classify_type_range (p : Str) :
    (classifyFile p).type ∈ [toStr "docs", toStr "ci", toStr "build", toStr "test",
      toStr "feat", toStr "refactor", toStr "chore"] ∧
    (classifyFile p).type ≠ toStr "fix" ∧ (classifyFile p).type ≠ toStr "perf" := by
  unfold classifyFile classifyLower
  by_cases h1 : isDocsPath (toLowerStr p) = true
  · rw [if_pos h1]
    decide
  rw [if_neg h1]
  by_cases h2 : isCiPath (toLowerStr p) = true
  · rw [if_pos h2]
    decide
  rw [if_neg h2]
  by_cases h3 : isBuildPath (toLowerStr p) = true
  · rw [if_pos h3]
    decide
  rw [if_neg h3]
  by_cases h4 : isTestPath (toLowerStr p) = true
  · rw [if_pos h4]
    decide
  rw [if_neg h4]
  by_cases h5 : isAnalyticsPath (toLowerStr p) = true
  · rw [if_pos h5]
    decide
  rw [if_neg h5]
  by_cases h6 : isAuthPath (toLowerStr p) = true
  · rw [if_pos h6]
    decide
  rw [if_neg h6]
  by_cases h7 : isApiPath (toLowerStr p) = true
  · rw [if_pos h7]
    decide
  rw [if_neg h7]
  by_cases h8 : isDbPath (toLowerStr p) = true
  · rw [if_pos h8]
    decide
  rw [if_neg h8]
  by_cases h9 : isUiPath (toLowerStr p) = true
  · rw [if_pos h9]
    decide
  rw [if_neg h9]
  by_cases h10 : isUtilPath (toLowerStr p) = true
  · rw [if_pos h10]
    decide
  rw [if_neg h10]
  by_cases h11 : isAppPath (toLowerStr p) = true
  · rw [if_pos h11]
    decide
  rw [if_neg h11]
  by_cases h12 : startsW (toStr "src/") (toLowerStr p) = true
  · rw [if_pos h12]
    decide
  rw [if_neg h12]
  decide

example : splitLines (toStr "a\nb") = [toStr "a", toStr "b"] := by decide

example : chunkDiff (toStr "aaaaaaaa\n   bbb") 1 = [toStr "aaaaaaaa", toStr "bbb"] := by decide

example : joinLines (chunkDiff (toStr "aaaaaaaa\n   bbb") 1) ≠ toStr "aaaaaaaa\n   bbb" := by decide

example : chunkDiff (toStr "aaaa\nbbbb\ncccc") 2 = [toStr "aaaa\nbbbb", toStr "cccc"] := by decide

example :
    splitDiffByFile (toStr "diff --git a/x b/x\nindex 1\ndiff --git a/y b/y\n+z") =
      [toStr "diff --git a/x b/x\nindex 1", toStr "diff --git a/y b/y\n+z"] := by decide

end LazyCommit
